import Mathlib

/-!
Shallow embedding of the line-balancing allocation engine of the LAPS
repository (`src/app.py`, function `compute_allocation`, lines 381-448),
together with proofs of the specified properties.

Modelling conventions:
* Python integers become `ℕ` (the repository validates `time_sec > 0`,
  `plan_qty > 0` and `shift_min > 0` at every entry point, so the values
  reaching `compute_allocation` are non-negative; positivity appears as an
  explicit hypothesis where a property needs it).
* Python float arithmetic (`takt = shift_sec / plan_qty`, the literal `0.6`,
  the bounds `takt - 10` and `takt + 2`) is modelled by exact rational
  arithmetic in `ℚ`.
* The `while True` search loop of lines 406-421 is embedded with an explicit
  fuel argument `acts.length + 1 - manpower`.  The loop's own exit test
  accepts as soon as `manpower >= len(activities)`, so the fuel can only run
  out at a state the loop would have accepted anyway; `searchGo_accept`
  below makes this precise.
* The loop exits holding the buckets of the final pass, which equal a fresh
  `binFill` run at the final manpower; `compute_allocation` below recomputes
  them that way.
-/

/-- Work element of a production line (the `Activity` model of `src/app.py`):
sequence number, description text and duration in seconds. -/
structure Activity where
  seq_no : ℕ
  text : String
  time_sec : ℕ
deriving DecidableEq

/-- One entry of the `operators` list built at `src/app.py` lines 432-438
(the dict with keys `name`, `acts`, `time`, `status`). -/
structure OperatorAssignment where
  name : String
  acts : List Activity
  time : ℕ
  status : String
deriving DecidableEq

/-- Return value of `compute_allocation` (`src/app.py` lines 385-395 for the
empty case and 440-448 for the regular case).  The regular case carries no
`error` key; that is modelled by `error = none`. -/
structure AllocationResult where
  line : String
  plan : ℕ
  shift : ℕ
  takt : ℚ
  wc : ℕ
  manpower_used : ℕ
  operators : List OperatorAssignment
  error : Option String
deriving DecidableEq

/-- `wc = sum(a.time_sec for a in activities)` (line 396). -/
def workContent (acts : List Activity) : ℕ :=
  (acts.map (fun a => a.time_sec)).sum

/-- `shift_sec = shift_min * 60; takt = shift_sec / plan_qty`
(lines 398-399), Python float division modelled exactly in `ℚ`. -/
def taktTime (plan_qty shift_min : ℕ) : ℚ :=
  ((shift_min * 60 : ℕ) : ℚ) / (plan_qty : ℚ)

/-- `UPPER_BOUND = takt + 2` (line 404). -/
def upperBound (takt : ℚ) : ℚ := takt + 2

/-- `LOWER_BOUND = takt - 10` (line 403); computed by the source but never
read afterwards. -/
def lowerBound (takt : ℚ) : ℚ := takt - 10

/-- `manpower = math.ceil(wc / takt); manpower = min(manpower, len(activities))`
(lines 400-401). -/
def initialManpower (acts : List Activity) (plan_qty shift_min : ℕ) : ℕ :=
  min (Nat.ceil ((workContent acts : ℚ) / taktTime plan_qty shift_min)) acts.length

/-- The advance test of lines 412-413: move to the next operator when adding
the duration `d` to the current operator's running total `tcur` would exceed
`UPPER_BOUND` and the current operator is not the last slot
(`op < manpower - 1`). -/
def nextOp (upper : ℚ) (manpower op tcur d : ℕ) : ℕ :=
  if ((tcur + d : ℕ) : ℚ) > upper ∧ op < manpower - 1 then op + 1 else op

/-- The body of the `for act in activities` loop of lines 410-416: `op` is
the current operator index, `buckets` and `times` the accumulator lists.
Each step first advances `op` via `nextOp`, then appends the activity to
bucket `op` and adds its duration to `times[op]`. -/
def fillGo (upper : ℚ) (manpower : ℕ) :
    List Activity → ℕ → List (List Activity) → List ℕ →
    List (List Activity) × List ℕ
  | [], _, buckets, times => (buckets, times)
  | a :: rest, op, buckets, times =>
    fillGo upper manpower rest (nextOp upper manpower op (times.getD op 0) a.time_sec)
      (buckets.set (nextOp upper manpower op (times.getD op 0) a.time_sec)
        (buckets.getD (nextOp upper manpower op (times.getD op 0) a.time_sec) [] ++ [a]))
      (times.set (nextOp upper manpower op (times.getD op 0) a.time_sec)
        (times.getD (nextOp upper manpower op (times.getD op 0) a.time_sec) 0 + a.time_sec))

/-- One full bin-fill pass (lines 407-416): start from `manpower` empty
buckets and zero times, at operator 0. -/
def binFill (acts : List Activity) (manpower : ℕ) (upper : ℚ) :
    List (List Activity) × List ℕ :=
  fillGo upper manpower acts 0 (List.replicate manpower []) (List.replicate manpower 0)

/-- `max(times)` of line 418; `times` is a list of naturals, all
non-negative, so folding `max` from 0 computes the Python `max`. -/
def listMax (l : List ℕ) : ℕ := l.foldr max 0

/-- Exit test of the search loop (line 418):
`max(times) <= UPPER_BOUND or manpower >= len(activities)`. -/
def acceptPass (acts : List Activity) (upper : ℚ) (manpower : ℕ) : Prop :=
  ((listMax (binFill acts manpower upper).2 : ℕ) : ℚ) ≤ upper ∨ acts.length ≤ manpower

instance (acts : List Activity) (upper : ℚ) (manpower : ℕ) :
    Decidable (acceptPass acts upper manpower) := by
  unfold acceptPass; infer_instance

/-- Fuel-indexed unfolding of the `while True` loop of lines 406-421,
returning the manpower at which the loop exits.  With fuel
`acts.length + 1 - manpower` the fuel can reach 0 only when
`manpower > acts.length`, a state the loop's own test accepts. -/
def searchGo (acts : List Activity) (upper : ℚ) : ℕ → ℕ → ℕ
  | 0, manpower => manpower
  | fuel + 1, manpower =>
    if acceptPass acts upper manpower then manpower
    else searchGo acts upper fuel (manpower + 1)

/-- Manpower at which the search loop of lines 406-421 exits, started from
`manpower`. -/
def finalManpower (acts : List Activity) (upper : ℚ) (manpower : ℕ) : ℕ :=
  searchGo acts upper (acts.length + 1 - manpower) manpower

/-- Number of bin-fill passes the loop of lines 406-421 executes (the
accepted pass included), started from `manpower`. -/
def passesGo (acts : List Activity) (upper : ℚ) : ℕ → ℕ → ℕ
  | 0, _ => 1
  | fuel + 1, manpower =>
    if acceptPass acts upper manpower then 1
    else passesGo acts upper fuel (manpower + 1) + 1

/-- Number of passes of the whole search, started from the seed. -/
def searchPasses (acts : List Activity) (upper : ℚ) (manpower : ℕ) : ℕ :=
  passesGo acts upper (acts.length + 1 - manpower) manpower

/-- Buckets held at loop exit: the accepted (final) pass is a fresh
`binFill` at the final manpower. -/
def finalBuckets (acts : List Activity) (plan_qty shift_min : ℕ) :
    List (List Activity) :=
  (binFill acts
    (finalManpower acts (upperBound (taktTime plan_qty shift_min))
      (initialManpower acts plan_qty shift_min))
    (upperBound (taktTime plan_qty shift_min))).1

/-- Status classification of lines 426-430: `"ok"` unless the total strictly
exceeds `takt` (`"over"`) or is strictly below `0.6 * takt` (`"under"`). -/
def statusOf (t : ℕ) (takt : ℚ) : String :=
  if (t : ℚ) > takt then "over"
  else if (t : ℚ) < (0.6 : ℚ) * takt then "under"
  else "ok"

/-- The `for i, acts in enumerate(buckets)` loop of lines 423-438: compute
each bucket's total, classify it, and append an operator record named
`OP(i+1)` when the total is positive. -/
def mkOps (takt : ℚ) : ℕ → List (List Activity) → List OperatorAssignment
  | _, [] => []
  | i, b :: rest =>
    let t := (b.map (fun a => a.time_sec)).sum
    let tail := mkOps takt (i + 1) rest
    if 0 < t then
      { name := "OP" ++ toString (i + 1), acts := b, time := t,
        status := statusOf t takt } :: tail
    else tail

/-- Operator list produced by the whole computation for a non-empty input. -/
def allocOperators (acts : List Activity) (plan_qty shift_min : ℕ) :
    List OperatorAssignment :=
  mkOps (taktTime plan_qty shift_min) 0 (finalBuckets acts plan_qty shift_min)

/-- `round(takt, 2)` of line 444.  Python rounds half to even; the two
rounding rules differ only when `q * 100` is exactly a half-integer, which
no property below exercises. -/
def round2 (q : ℚ) : ℚ := ((round (q * 100) : ℤ) : ℚ) / 100

/-- `compute_allocation` (lines 381-448).  The database lookup of lines
382-384 is external: the caller materialises the line's activities, ordered
by sequence number, and the line's display name. -/
def compute_allocation (line_name : String) (activities : List Activity)
    (plan_qty shift_min : ℕ) : AllocationResult :=
  if activities.isEmpty then
    { line := line_name, plan := plan_qty, shift := shift_min, takt := 0,
      wc := 0, manpower_used := 0, operators := [],
      error := some "No activities defined for this line." }
  else
    { line := line_name, plan := plan_qty, shift := shift_min,
      takt := round2 (taktTime plan_qty shift_min),
      wc := workContent activities,
      manpower_used := (allocOperators activities plan_qty shift_min).length,
      operators := allocOperators activities plan_qty shift_min,
      error := none }

/-- Concatenation, in operator order, of the reported activity
sub-sequences. -/
def reportedActs (ops : List OperatorAssignment) : List Activity :=
  (ops.map (fun o => o.acts)).flatten

/-- Follows the spec's wording of the sequential bin-fill pass (step 4 of
the algorithm), for comparison with `binFill`: walk the activities in
sequence order, keeping the current operator index and its running total;
for each activity, if adding its duration to the running total would exceed
the upper bound and the current operator is not the last available slot,
advance to the next operator before assigning; otherwise assign to the
current operator.  The output pairs each activity, in input order, with the
operator index it is assigned to. -/
def specAssign (upper : ℚ) (manpower : ℕ) :
    List Activity → ℕ → ℕ → List (ℕ × Activity)
  | [], _, _ => []
  | a :: rest, op, total =>
    if upper < ((total + a.time_sec : ℕ) : ℚ) ∧ op + 1 < manpower then
      (op + 1, a) :: specAssign upper manpower rest (op + 1) a.time_sec
    else
      (op, a) :: specAssign upper manpower rest op (total + a.time_sec)

/-! ## Concrete inputs used in the worked examples and counterexamples -/

/-- Two activities of 10 s each. -/
def actsW : List Activity := [⟨1, "w1", 10⟩, ⟨2, "w2", 10⟩]

/-- The spec's worked example: six activities of 10 s each (total 60 s). -/
def actsSix : List Activity :=
  [⟨1, "a1", 10⟩, ⟨2, "a2", 10⟩, ⟨3, "a3", 10⟩,
   ⟨4, "a4", 10⟩, ⟨5, "a5", 10⟩, ⟨6, "a6", 10⟩]

/-- Three activities of 5 s each (total 15 s). -/
def actsThree : List Activity := [⟨1, "b1", 5⟩, ⟨2, "b2", 5⟩, ⟨3, "b3", 5⟩]

/-- A first activity far above any reasonable takt, then a short one. -/
def actsSkip : List Activity := [⟨1, "big", 100⟩, ⟨2, "small", 1⟩]

/-! ## List helper lemmas -/

theorem getD_set_self {α : Type} (l : List α) (i : ℕ) (x d : α) (h : i < l.length) :
    (l.set i x).getD i d = x := by
  induction l generalizing i with
  | nil => simp at h
  | cons hd tl ih =>
    cases i with
    | zero => simp
    | succ n => simpa using ih n (by simpa using h)

theorem getD_set_ne {α : Type} (l : List α) (i j : ℕ) (x d : α) (h : i ≠ j) :
    (l.set i x).getD j d = l.getD j d := by
  induction l generalizing i j with
  | nil => simp
  | cons hd tl ih =>
    cases i with
    | zero =>
      cases j with
      | zero => exact absurd rfl h
      | succ m => simp
    | succ n =>
      cases j with
      | zero => simp
      | succ m => simpa using ih n m (fun e => h (by omega))

theorem getD_replicate_nil {α : Type} (n j : ℕ) :
    ((List.replicate n ([] : List α)).getD j []) = [] := by
  induction n generalizing j with
  | zero => simp
  | succ m ih =>
    cases j with
    | zero => simp
    | succ k => simpa using ih k

theorem getD_replicate_zero (n j : ℕ) : ((List.replicate n (0 : ℕ)).getD j 0) = 0 := by
  induction n generalizing j with
  | zero => simp
  | succ m ih =>
    cases j with
    | zero => simp
    | succ k => simpa using ih k

theorem flatten_replicate_nil {α : Type} (n : ℕ) :
    (List.replicate n ([] : List α)).flatten = [] := by
  induction n with
  | zero => simp
  | succ m ih => simpa using ih

/-- Appending one element to bucket `i` appends it to the flattening,
provided every bucket after `i` is empty. -/
theorem flatten_set_append {α : Type} (l : List (List α)) (i : ℕ) (a : α)
    (hi : i < l.length) (hafter : ∀ j, i < j → l.getD j [] = []) :
    (l.set i (l.getD i [] ++ [a])).flatten = l.flatten ++ [a] := by
  induction l generalizing i with
  | nil => simp at hi
  | cons hd tl ih =>
    cases i with
    | zero =>
      have htl : ∀ b ∈ tl, b = [] := by
        intro b hb
        obtain ⟨k, hk, rfl⟩ := List.getElem_of_mem hb
        have := hafter (k + 1) (Nat.succ_pos k)
        simpa [List.getD_cons_succ, List.getD_eq_getElem?_getD, List.getElem?_eq_getElem hk]
          using this
      have : tl.flatten = [] := List.flatten_eq_nil_iff.2 htl
      simp [this]
    | succ n =>
      have h1 : n < tl.length := by simpa using hi
      have h2 : ∀ j, n < j → tl.getD j [] = [] := by
        intro j hj
        have := hafter (j + 1) (by omega)
        simpa using this
      simp only [List.set_cons_succ, List.getD_cons_succ, List.flatten_cons,
        List.append_assoc]
      rw [ih n h1 h2]

/-! ## Bin-fill pass: structure of the produced buckets -/

theorem fillGo_length (upper : ℚ) (manpower : ℕ) (rest : List Activity)
    (op : ℕ) (buckets : List (List Activity)) (times : List ℕ) :
    (fillGo upper manpower rest op buckets times).1.length = buckets.length ∧
    (fillGo upper manpower rest op buckets times).2.length = times.length := by
  induction rest generalizing op buckets times with
  | nil => simp [fillGo]
  | cons a rest ih =>
    simp only [fillGo]
    constructor
    · exact ((ih _ _ _).1).trans (by simp)
    · exact ((ih _ _ _).2).trans (by simp)

/-- During the pass, the flattening of the buckets accumulates the processed
activities in order: every bucket after the current operator is still empty,
so each append lands at the end of the flattening. -/
theorem fillGo_flatten (upper : ℚ) (manpower : ℕ) (rest : List Activity) :
    ∀ (op : ℕ) (buckets : List (List Activity)) (times : List ℕ),
    op < manpower → buckets.length = manpower →
    (∀ j, op < j → buckets.getD j [] = []) →
    (fillGo upper manpower rest op buckets times).1.flatten = buckets.flatten ++ rest := by
  induction rest with
  | nil => intro op buckets times _ _ _; simp [fillGo]
  | cons a rest ih =>
    intro op buckets times hop hlen hafter
    simp only [fillGo]
    set op2 := nextOp upper manpower op (times.getD op 0) a.time_sec with hop2
    have hople : op ≤ op2 := by
      rw [hop2]; unfold nextOp; split <;> omega
    have hop2lt : op2 < manpower := by
      rw [hop2]; unfold nextOp; split <;> omega
    have hafter2 : ∀ j, op2 < j → buckets.getD j [] = [] := by
      intro j hj; exact hafter j (by omega)
    have hset : ∀ j, op2 < j →
        (buckets.set op2 (buckets.getD op2 [] ++ [a])).getD j [] = [] := by
      intro j hj
      rw [getD_set_ne _ _ _ _ _ (by omega)]
      exact hafter2 j hj
    rw [ih op2 _ _ hop2lt (by simpa using hlen) hset]
    rw [flatten_set_append _ _ _ (by omega) hafter2]
    simp

/-- The accepted pass covers the input exactly: the flattening of the
buckets, in operator order, is the original activity list. -/
theorem binFill_flatten (acts : List Activity) (manpower : ℕ) (upper : ℚ)
    (hm : 1 ≤ manpower) :
    (binFill acts manpower upper).1.flatten = acts := by
  unfold binFill
  rw [fillGo_flatten upper manpower acts 0 _ _ hm (by simp)
    (fun j _ => getD_replicate_nil manpower j)]
  rw [flatten_replicate_nil]
  simp

theorem binFill_length (acts : List Activity) (manpower : ℕ) (upper : ℚ) :
    (binFill acts manpower upper).1.length = manpower := by
  unfold binFill
  rw [(fillGo_length _ _ _ _ _ _).1]
  simp


/-! ## Operator assembly (lines 423-438) -/

theorem mem_mkOps (takt : ℚ) :
    ∀ (bs : List (List Activity)) (i : ℕ), ∀ o ∈ mkOps takt i bs,
      o.time = (o.acts.map (fun a => a.time_sec)).sum ∧
      o.status = statusOf o.time takt ∧ 0 < o.time := by
  intro bs
  induction bs with
  | nil => intro i o ho; simp [mkOps] at ho
  | cons b rest ih =>
    intro i o ho
    simp only [mkOps] at ho
    by_cases ht : 0 < (b.map (fun a => a.time_sec)).sum
    · rw [if_pos ht] at ho
      rcases List.mem_cons.1 ho with h | h
      · subst h; exact ⟨rfl, rfl, ht⟩
      · exact ih (i + 1) o h
    · rw [if_neg ht] at ho
      exact ih (i + 1) o ho

theorem mkOps_map_acts (takt : ℚ) :
    ∀ (bs : List (List Activity)) (i : ℕ),
      (mkOps takt i bs).map (fun o => o.acts) =
        bs.filter (fun b => decide (0 < (b.map (fun a => a.time_sec)).sum)) := by
  intro bs
  induction bs with
  | nil => intro i; simp [mkOps]
  | cons b rest ih =>
    intro i
    simp only [mkOps, List.filter_cons]
    by_cases ht : 0 < (b.map (fun a => a.time_sec)).sum
    · rw [if_pos ht]
      simp only [List.map_cons, ih (i + 1)]
      rw [if_pos (by simpa using ht)]
    · rw [if_neg ht]
      rw [if_neg (by simpa using ht)]
      exact ih (i + 1)

theorem mkOps_length_le (takt : ℚ) :
    ∀ (bs : List (List Activity)) (i : ℕ), (mkOps takt i bs).length ≤ bs.length := by
  intro bs
  induction bs with
  | nil => intro i; simp [mkOps]
  | cons b rest ih =>
    intro i
    simp only [mkOps]
    split
    · simpa using ih (i + 1)
    · exact (ih (i + 1)).trans (by simp)

/-- A bucket whose total is zero is empty when every duration is positive,
so dropping zero-total buckets does not change the flattening. -/
theorem flatten_filter_pos (bs : List (List Activity))
    (hpos : ∀ b ∈ bs, ∀ a ∈ b, 0 < a.time_sec) :
    (bs.filter (fun b => decide (0 < (b.map (fun a => a.time_sec)).sum))).flatten =
      bs.flatten := by
  induction bs with
  | nil => simp
  | cons b rest ih =>
    have hrest : ∀ c ∈ rest, ∀ a ∈ c, 0 < a.time_sec :=
      fun c hc => hpos c (List.mem_cons_of_mem _ hc)
    simp only [List.filter_cons]
    by_cases ht : 0 < (b.map (fun a => a.time_sec)).sum
    · rw [if_pos (by simpa using ht)]
      simp [ih hrest]
    · rw [if_neg (by simpa using ht)]
      have hb : b = [] := by
        cases b with
        | nil => rfl
        | cons a tl =>
          exfalso
          apply ht
          have := hpos _ (List.mem_cons_self _ _) a (List.mem_cons_self _ _)
          simp only [List.map_cons, List.sum_cons]
          omega
      subst hb
      simpa using ih hrest

/-- Every reported operator of `mkOps` carries a positive total. -/
theorem mkOps_time_pos (takt : ℚ) (bs : List (List Activity)) (i : ℕ) :
    ∀ o ∈ mkOps takt i bs, 0 < o.time :=
  fun o ho => (mem_mkOps takt bs i o ho).2.2

/-! ## Search loop (lines 406-421) -/

theorem searchGo_ge (acts : List Activity) (upper : ℚ) :
    ∀ (fuel m : ℕ), m ≤ searchGo acts upper fuel m := by
  intro fuel
  induction fuel with
  | zero => intro m; simp [searchGo]
  | succ f ih =>
    intro m
    simp only [searchGo]
    split
    · exact le_refl m
    · exact (Nat.le_succ m).trans (ih (m + 1))

theorem searchGo_le (acts : List Activity) (upper : ℚ) :
    ∀ (fuel m : ℕ), m ≤ acts.length → searchGo acts upper fuel m ≤ acts.length := by
  intro fuel
  induction fuel with
  | zero => intro m hm; simpa [searchGo] using hm
  | succ f ih =>
    intro m hm
    simp only [searchGo]
    split
    · exact hm
    · rename_i hrej
      have : m < acts.length := by
        by_contra hc
        exact hrej (Or.inr (by omega))
      exact ih (m + 1) (by omega)

/-- The state the loop exits in passes the exit test of line 418.  When the
fuel would run out, `manpower > acts.length` already holds, which the test
accepts, so the fuel embedding is faithful to the unbounded loop. -/
theorem searchGo_accept (acts : List Activity) (upper : ℚ) :
    ∀ (fuel m : ℕ), acts.length + 1 ≤ fuel + m →
      acceptPass acts upper (searchGo acts upper fuel m) := by
  intro fuel
  induction fuel with
  | zero =>
    intro m hm
    simp only [searchGo]
    exact Or.inr (by omega)
  | succ f ih =>
    intro m hm
    simp only [searchGo]
    split
    · assumption
    · exact ih (m + 1) (by omega)

/-- Every manpower value strictly between the start and the exit value was
tried and rejected by the exit test. -/
theorem searchGo_reject (acts : List Activity) (upper : ℚ) :
    ∀ (fuel m m2 : ℕ), m ≤ m2 → m2 < searchGo acts upper fuel m →
      ¬ acceptPass acts upper m2 := by
  intro fuel
  induction fuel with
  | zero => intro m m2 h1 h2; simp [searchGo] at h2; omega
  | succ f ih =>
    intro m m2 h1 h2
    simp only [searchGo] at h2
    by_cases hacc : acceptPass acts upper m
    · rw [if_pos hacc] at h2; omega
    · rw [if_neg hacc] at h2
      rcases Nat.eq_or_lt_of_le h1 with rfl | hlt
      · exact hacc
      · exact ih (m + 1) m2 (by omega) h2

theorem finalManpower_ge (acts : List Activity) (upper : ℚ) (m : ℕ) :
    m ≤ finalManpower acts upper m :=
  searchGo_ge acts upper _ m

theorem finalManpower_le (acts : List Activity) (upper : ℚ) (m : ℕ)
    (hm : m ≤ acts.length) : finalManpower acts upper m ≤ acts.length :=
  searchGo_le acts upper _ m hm

theorem finalManpower_accept (acts : List Activity) (upper : ℚ) (m : ℕ) :
    acceptPass acts upper (finalManpower acts upper m) :=
  searchGo_accept acts upper _ m (by omega)

theorem finalManpower_reject (acts : List Activity) (upper : ℚ) (m m2 : ℕ)
    (h1 : m ≤ m2) (h2 : m2 < finalManpower acts upper m) :
    ¬ acceptPass acts upper m2 :=
  searchGo_reject acts upper _ m m2 h1 h2

theorem passesGo_bound (acts : List Activity) (upper : ℚ) :
    ∀ (fuel m : ℕ), m ≤ acts.length →
      passesGo acts upper fuel m ≤ acts.length - m + 1 := by
  intro fuel
  induction fuel with
  | zero => intro m hm; simp [passesGo]
  | succ f ih =>
    intro m hm
    simp only [passesGo]
    split
    · omega
    · rename_i hrej
      have hlt : m < acts.length := by
        by_contra hc
        exact hrej (Or.inr (by omega))
      have := ih (m + 1) (by omega)
      omega

theorem searchPasses_bound (acts : List Activity) (upper : ℚ) (m : ℕ)
    (hm : m ≤ acts.length) :
    searchPasses acts upper m ≤ acts.length - m + 1 :=
  passesGo_bound acts upper _ m hm

/-! ## Status classification (lines 426-430) -/

theorem statusOf_over_iff (t : ℕ) (takt : ℚ) :
    statusOf t takt = "over" ↔ takt < (t : ℚ) := by
  unfold statusOf
  by_cases h1 : takt < (t : ℚ)
  · rw [if_pos h1]
    exact iff_of_true rfl h1
  · rw [if_neg h1]
    by_cases h2 : (t : ℚ) < (0.6 : ℚ) * takt
    · rw [if_pos h2]
      exact iff_of_false (by decide) h1
    · rw [if_neg h2]
      exact iff_of_false (by decide) h1

theorem statusOf_under_iff (t : ℕ) (takt : ℚ) (htakt : 0 ≤ takt) :
    statusOf t takt = "under" ↔ (t : ℚ) < (0.6 : ℚ) * takt := by
  unfold statusOf
  by_cases h2 : (t : ℚ) < (0.6 : ℚ) * takt
  · have h6 : (0.6 : ℚ) * takt ≤ 1 * takt :=
      mul_le_mul_of_nonneg_right (by norm_num) htakt
    rw [one_mul] at h6
    have h1 : ¬ takt < (t : ℚ) := not_lt.2 (le_of_lt (lt_of_lt_of_le h2 h6))
    rw [if_neg h1, if_pos h2]
    exact iff_of_true rfl h2
  · by_cases h1 : takt < (t : ℚ)
    · rw [if_pos h1]
      exact iff_of_false (by decide) h2
    · rw [if_neg h1, if_neg h2]
      exact iff_of_false (by decide) h2

theorem statusOf_ok_iff (t : ℕ) (takt : ℚ) :
    statusOf t takt = "ok" ↔ ((t : ℚ) ≤ takt ∧ (0.6 : ℚ) * takt ≤ (t : ℚ)) := by
  unfold statusOf
  by_cases h1 : takt < (t : ℚ)
  · rw [if_pos h1]
    exact iff_of_false (by decide) (fun h => absurd h1 (not_lt.2 h.1))
  · by_cases h2 : (t : ℚ) < (0.6 : ℚ) * takt
    · rw [if_neg h1, if_pos h2]
      exact iff_of_false (by decide) (fun h => absurd h2 (not_lt.2 h.2))
    · rw [if_neg h1, if_neg h2]
      exact iff_of_true rfl ⟨not_lt.1 h1, not_lt.1 h2⟩

/-! ## Positivity facts feeding the main theorems -/

theorem taktTime_pos (plan_qty shift_min : ℕ) (hq : 0 < plan_qty)
    (hs : 0 < shift_min) : 0 < taktTime plan_qty shift_min := by
  unfold taktTime
  apply div_pos
  · exact_mod_cast Nat.mul_pos hs (by norm_num)
  · exact_mod_cast hq

theorem workContent_pos (acts : List Activity) (hne : acts ≠ [])
    (hpos : ∀ a ∈ acts, 0 < a.time_sec) : 0 < workContent acts := by
  cases acts with
  | nil => exact absurd rfl hne
  | cons a rest =>
    have := hpos a (List.mem_cons_self _ _)
    unfold workContent
    simp only [List.map_cons, List.sum_cons]
    omega

theorem initialManpower_pos (acts : List Activity) (plan_qty shift_min : ℕ)
    (hne : acts ≠ []) (hpos : ∀ a ∈ acts, 0 < a.time_sec)
    (hq : 0 < plan_qty) (hs : 0 < shift_min) :
    1 ≤ initialManpower acts plan_qty shift_min := by
  unfold initialManpower
  apply le_min
  · rw [Nat.one_le_iff_ne_zero]
    intro hz
    have hpos2 : (0 : ℚ) < (workContent acts : ℚ) / taktTime plan_qty shift_min :=
      div_pos (by exact_mod_cast workContent_pos acts hne hpos)
        (taktTime_pos plan_qty shift_min hq hs)
    exact absurd hz (Nat.pos_iff_ne_zero.1 (Nat.ceil_pos.2 hpos2))
  · rw [Nat.one_le_iff_ne_zero, Ne, List.length_eq_zero]
    exact hne

theorem initialManpower_le (acts : List Activity) (plan_qty shift_min : ℕ) :
    initialManpower acts plan_qty shift_min ≤ acts.length :=
  min_le_right _ _

/-- Unfolding of `compute_allocation` on a non-empty activity list
(lines 396-448 of `src/app.py`). -/
theorem compute_allocation_ne (line_name : String) (acts : List Activity)
    (plan_qty shift_min : ℕ) (hne : acts ≠ []) :
    compute_allocation line_name acts plan_qty shift_min =
      { line := line_name, plan := plan_qty, shift := shift_min,
        takt := round2 (taktTime plan_qty shift_min),
        wc := workContent acts,
        manpower_used := (allocOperators acts plan_qty shift_min).length,
        operators := allocOperators acts plan_qty shift_min,
        error := none } := by
  cases acts with
  | nil => exact absurd rfl hne
  | cons a rest => rfl

/-! ## Refinement: the imperative pass agrees with the spec-worded pass -/

theorem fillGo_specAssign (upper : ℚ) (manpower : ℕ) (rest : List Activity) :
    ∀ (op : ℕ) (buckets : List (List Activity)) (times : List ℕ),
    op < manpower → buckets.length = manpower → times.length = manpower →
    (∀ j, op < j → times.getD j 0 = 0) →
    ∀ k, (fillGo upper manpower rest op buckets times).1.getD k [] =
      buckets.getD k [] ++
        ((specAssign upper manpower rest op (times.getD op 0)).filter
          (fun p => p.1 == k)).map (fun p => p.2) := by
  induction rest with
  | nil => intro op buckets times _ _ _ _ k; simp [fillGo, specAssign]
  | cons a rest ih =>
    intro op buckets times hop hblen htlen hzero k
    simp only [fillGo, specAssign]
    by_cases hc : upper < ((times.getD op 0 + a.time_sec : ℕ) : ℚ) ∧ op + 1 < manpower
    · -- advance before assigning
      have hno : nextOp upper manpower op (times.getD op 0) a.time_sec = op + 1 := by
        unfold nextOp
        rw [if_pos ⟨hc.1, by omega⟩]
      rw [if_pos hc, hno]
      have hz1 : times.getD (op + 1) 0 = 0 := hzero (op + 1) (by omega)
      have hset1 : (times.set (op + 1) (times.getD (op + 1) 0 + a.time_sec)).getD (op + 1) 0
          = a.time_sec := by
        rw [getD_set_self _ _ _ _ (by omega), hz1]
        omega
      have hzafter : ∀ j, op + 1 < j →
          (times.set (op + 1) (times.getD (op + 1) 0 + a.time_sec)).getD j 0 = 0 := by
        intro j hj
        rw [getD_set_ne _ _ _ _ _ (by omega)]
        exact hzero j (by omega)
      rw [ih (op + 1) _ _ hc.2 (by simpa using hblen) (by simpa using htlen) hzafter k]
      rw [hset1]
      by_cases hk : op + 1 = k
      · subst hk
        rw [getD_set_self _ _ _ _ (by omega)]
        simp [List.filter_cons]
      · rw [getD_set_ne _ _ _ _ _ hk]
        simp only [List.filter_cons]
        have : ((op + 1 : ℕ) == k) = false := by
          simp [hk]
        rw [this]
        simp
    · -- assign to the current operator
      have hno : nextOp upper manpower op (times.getD op 0) a.time_sec = op := by
        unfold nextOp
        rw [if_neg]
        intro h2
        exact hc ⟨h2.1, by omega⟩
      rw [if_neg hc, hno]
      have hset1 : (times.set op (times.getD op 0 + a.time_sec)).getD op 0
          = times.getD op 0 + a.time_sec := by
        rw [getD_set_self _ _ _ _ (by omega)]
      have hzafter : ∀ j, op < j →
          (times.set op (times.getD op 0 + a.time_sec)).getD j 0 = 0 := by
        intro j hj
        rw [getD_set_ne _ _ _ _ _ (by omega)]
        exact hzero j hj
      rw [ih op _ _ hop (by simpa using hblen) (by simpa using htlen) hzafter k]
      rw [hset1]
      by_cases hk : op = k
      · subst hk
        rw [getD_set_self _ _ _ _ (by omega)]
        simp [List.filter_cons]
      · rw [getD_set_ne _ _ _ _ _ hk]
        simp only [List.filter_cons]
        have : ((op : ℕ) == k) = false := by
          simp [hk]
        rw [this]
        simp

/-! ## Claim theorems -/

/-- C1: for every non-empty ordered activity list (durations positive, as
the repository guarantees for every stored activity) and positive planned
quantity and shift length, concatenating the activity sub-sequences of the
reported operators in operator order reproduces the original input sequence
exactly: no activity is duplicated, none is dropped, the order is
preserved, and no activity is split across operators. -/
theorem alloc_concat_reported_eq_input (line_name : String)
    (acts : List Activity) (plan_qty shift_min : ℕ) (hne : acts ≠ [])
    (hpos : ∀ a ∈ acts, 0 < a.time_sec)
    (hq : 0 < plan_qty) (hs : 0 < shift_min) :
    reportedActs (compute_allocation line_name acts plan_qty shift_min).operators
      = acts := by
  rw [compute_allocation_ne _ _ _ _ hne]
  show reportedActs (allocOperators acts plan_qty shift_min) = acts
  have hm1 : 1 ≤ finalManpower acts (upperBound (taktTime plan_qty shift_min))
      (initialManpower acts plan_qty shift_min) :=
    le_trans (initialManpower_pos acts plan_qty shift_min hne hpos hq hs)
      (finalManpower_ge _ _ _)
  have hflat : (finalBuckets acts plan_qty shift_min).flatten = acts := by
    unfold finalBuckets
    exact binFill_flatten _ _ _ hm1
  have hposb : ∀ b ∈ finalBuckets acts plan_qty shift_min, ∀ a ∈ b,
      0 < a.time_sec := by
    intro b hb a ha
    apply hpos
    rw [← hflat]
    exact List.mem_flatten.2 ⟨b, hb, ha⟩
  unfold reportedActs allocOperators
  rw [mkOps_map_acts, flatten_filter_pos _ hposb]
  exact hflat

theorem alloc_concat_reported_eq_input_witness :
    actsW ≠ [] ∧ (∀ a ∈ actsW, 0 < a.time_sec) ∧ 0 < 2 ∧ 0 < 1 ∧
      reportedActs (compute_allocation "L1" actsW 2 1).operators = actsW :=
  ⟨by decide, by decide, by decide, by decide,
    alloc_concat_reported_eq_input "L1" actsW 2 1 (by decide) (by decide)
      (by decide) (by decide)⟩

/-- C2: for every non-empty activity list (with positive durations and
positive parameters), each reported operator's status is computed from the
unrounded takt time: `"over"` iff its total strictly exceeds the takt,
`"under"` iff its total is strictly below `0.6 * takt`, and `"ok"` exactly
when the total lies in the closed band between them — in particular, a
total exactly equal to the takt, or exactly equal to `0.6 * takt`, is
`"ok"`. -/
theorem alloc_status_iff (line_name : String) (acts : List Activity)
    (plan_qty shift_min : ℕ) (hne : acts ≠ [])
    (hpos : ∀ a ∈ acts, 0 < a.time_sec)
    (hq : 0 < plan_qty) (hs : 0 < shift_min) :
    ∀ o ∈ (compute_allocation line_name acts plan_qty shift_min).operators,
      (o.status = "over" ↔ taktTime plan_qty shift_min < (o.time : ℚ)) ∧
      (o.status = "under" ↔
        (o.time : ℚ) < (0.6 : ℚ) * taktTime plan_qty shift_min) ∧
      (o.status = "ok" ↔ ((o.time : ℚ) ≤ taktTime plan_qty shift_min ∧
        (0.6 : ℚ) * taktTime plan_qty shift_min ≤ (o.time : ℚ))) := by
  intro o ho
  rw [compute_allocation_ne _ _ _ _ hne] at ho
  have ho2 : o ∈ allocOperators acts plan_qty shift_min := ho
  have hmem := mem_mkOps (taktTime plan_qty shift_min)
    (finalBuckets acts plan_qty shift_min) 0 o ho2
  have htpos : (0 : ℚ) ≤ taktTime plan_qty shift_min :=
    le_of_lt (taktTime_pos _ _ hq hs)
  rw [hmem.2.1]
  exact ⟨statusOf_over_iff _ _, statusOf_under_iff _ _ htpos,
    statusOf_ok_iff _ _⟩

theorem alloc_status_iff_witness :
    actsW ≠ [] ∧ (∀ a ∈ actsW, 0 < a.time_sec) ∧ 0 < 2 ∧ 0 < 1 ∧
      (∀ o ∈ (compute_allocation "L1" actsW 2 1).operators,
        (o.status = "over" ↔ taktTime 2 1 < (o.time : ℚ)) ∧
        (o.status = "under" ↔ (o.time : ℚ) < (0.6 : ℚ) * taktTime 2 1) ∧
        (o.status = "ok" ↔ ((o.time : ℚ) ≤ taktTime 2 1 ∧
          (0.6 : ℚ) * taktTime 2 1 ≤ (o.time : ℚ)))) :=
  ⟨by decide, by decide, by decide, by decide,
    alloc_status_iff "L1" actsW 2 1 (by decide) (by decide) (by decide)
      (by decide)⟩

/-- C3: for every non-empty activity list (positive durations, positive
parameters), the operator-count search executes at most
`acts.length - initialManpower + 1` bin-fill passes, the manpower at loop
exit never exceeds `acts.length`, and hence the number of reported
operators never exceeds `acts.length`. -/
theorem alloc_termination_bound (line_name : String) (acts : List Activity)
    (plan_qty shift_min : ℕ) (hne : acts ≠ [])
    (hpos : ∀ a ∈ acts, 0 < a.time_sec)
    (hq : 0 < plan_qty) (hs : 0 < shift_min) :
    searchPasses acts (upperBound (taktTime plan_qty shift_min))
        (initialManpower acts plan_qty shift_min) ≤
      acts.length - initialManpower acts plan_qty shift_min + 1 ∧
    finalManpower acts (upperBound (taktTime plan_qty shift_min))
        (initialManpower acts plan_qty shift_min) ≤ acts.length ∧
    (compute_allocation line_name acts plan_qty shift_min).operators.length ≤
      acts.length := by
  have hle := initialManpower_le acts plan_qty shift_min
  refine ⟨searchPasses_bound _ _ _ hle, finalManpower_le _ _ _ hle, ?_⟩
  rw [compute_allocation_ne _ _ _ _ hne]
  show (allocOperators acts plan_qty shift_min).length ≤ acts.length
  unfold allocOperators
  have h1 := mkOps_length_le (taktTime plan_qty shift_min)
    (finalBuckets acts plan_qty shift_min) 0
  have h2 : (finalBuckets acts plan_qty shift_min).length =
      finalManpower acts (upperBound (taktTime plan_qty shift_min))
        (initialManpower acts plan_qty shift_min) := by
    unfold finalBuckets
    exact binFill_length _ _ _
  have h3 := finalManpower_le acts (upperBound (taktTime plan_qty shift_min))
    (initialManpower acts plan_qty shift_min) hle
  omega

theorem alloc_termination_bound_witness :
    actsW ≠ [] ∧ (∀ a ∈ actsW, 0 < a.time_sec) ∧ 0 < 2 ∧ 0 < 1 ∧
      (searchPasses actsW (upperBound (taktTime 2 1))
          (initialManpower actsW 2 1) ≤
        actsW.length - initialManpower actsW 2 1 + 1 ∧
      finalManpower actsW (upperBound (taktTime 2 1))
          (initialManpower actsW 2 1) ≤ actsW.length ∧
      (compute_allocation "L1" actsW 2 1).operators.length ≤ actsW.length) :=
  ⟨by decide, by decide, by decide, by decide,
    alloc_termination_bound "L1" actsW 2 1 (by decide) (by decide)
      (by decide) (by decide)⟩

/-- C4: the bin-fill pass walks the activities in sequence order starting at
operator 0 with running total 0 and threshold `UPPER_BOUND = takt + 2`: for
any manpower with at least one slot, bucket `k` of `binFill` holds exactly
the activities, in input order, that the spec-worded walk `specAssign`
assigns to operator `k` — the walk that advances to the next operator
before assigning exactly when adding the activity's duration to the current
running total would exceed the bound and the current operator is not the
last available slot, with no reordering or lookahead. -/
theorem binFill_refines_specAssign (acts : List Activity) (manpower : ℕ)
    (upper : ℚ) (hm : 1 ≤ manpower) (k : ℕ) :
    (binFill acts manpower upper).1.getD k [] =
      ((specAssign upper manpower acts 0 0).filter (fun p => p.1 == k)).map
        (fun p => p.2) := by
  unfold binFill
  have h0 : (List.replicate manpower (0 : ℕ)).getD 0 0 = 0 :=
    getD_replicate_zero _ _
  have hrw := fillGo_specAssign upper manpower acts 0
    (List.replicate manpower []) (List.replicate manpower 0)
    (by omega) (by simp) (by simp) (fun j _ => getD_replicate_zero _ _) k
  rw [hrw, h0, getD_replicate_nil]
  simp

theorem binFill_refines_specAssign_witness :
    1 ≤ 2 ∧
      (binFill actsW 2 32).1.getD 0 [] =
        ((specAssign 32 2 actsW 0 0).filter (fun p => p.1 == 0)).map
          (fun p => p.2) :=
  ⟨by decide, binFill_refines_specAssign actsW 2 32 (by decide) 0⟩

/-- C5: the search seeds the operator count at
`min(ceil(workContent / takt), len(acts))`; the configuration reported by
`compute_allocation` is a fresh bin-fill pass at the loop's exit manpower;
the exit state passes the acceptance test (maximum operator total at most
`takt + 2`, or manpower at least `len(acts)`); and every manpower value
from the seed up to (excluding) the exit value was tried as a fresh pass
and rejected (its maximum total exceeded `takt + 2` while its manpower was
still below `len(acts)`), the count growing by exactly 1 each time. -/
theorem alloc_search_loop_spec (line_name : String) (acts : List Activity)
    (plan_qty shift_min : ℕ) (hne : acts ≠ [])
    (hpos : ∀ a ∈ acts, 0 < a.time_sec)
    (hq : 0 < plan_qty) (hs : 0 < shift_min) :
    initialManpower acts plan_qty shift_min =
      min (Nat.ceil ((workContent acts : ℚ) / taktTime plan_qty shift_min))
        acts.length ∧
    (compute_allocation line_name acts plan_qty shift_min).operators =
      mkOps (taktTime plan_qty shift_min) 0
        ((binFill acts
          (finalManpower acts (upperBound (taktTime plan_qty shift_min))
            (initialManpower acts plan_qty shift_min))
          (upperBound (taktTime plan_qty shift_min))).1) ∧
    (((listMax (binFill acts
          (finalManpower acts (upperBound (taktTime plan_qty shift_min))
            (initialManpower acts plan_qty shift_min))
          (upperBound (taktTime plan_qty shift_min))).2 : ℕ) : ℚ) ≤
        upperBound (taktTime plan_qty shift_min) ∨
      acts.length ≤ finalManpower acts (upperBound (taktTime plan_qty shift_min))
        (initialManpower acts plan_qty shift_min)) ∧
    (∀ m, initialManpower acts plan_qty shift_min ≤ m →
      m < finalManpower acts (upperBound (taktTime plan_qty shift_min))
        (initialManpower acts plan_qty shift_min) →
      ¬ (((listMax (binFill acts m (upperBound (taktTime plan_qty shift_min))).2 :
            ℕ) : ℚ) ≤ upperBound (taktTime plan_qty shift_min)) ∧
        m < acts.length) := by
  refine ⟨rfl, ?_, ?_, ?_⟩
  · rw [compute_allocation_ne _ _ _ _ hne]
    rfl
  · have hacc := finalManpower_accept acts
      (upperBound (taktTime plan_qty shift_min))
      (initialManpower acts plan_qty shift_min)
    unfold acceptPass at hacc
    exact hacc
  · intro m h1 h2
    have hrej := finalManpower_reject acts
      (upperBound (taktTime plan_qty shift_min))
      (initialManpower acts plan_qty shift_min) m h1 h2
    unfold acceptPass at hrej
    push_neg at hrej
    exact ⟨fun hle => absurd hle (not_le.2 hrej.1), by omega⟩

theorem alloc_search_loop_spec_witness :
    actsW ≠ [] ∧ (∀ a ∈ actsW, 0 < a.time_sec) ∧ 0 < 2 ∧ 0 < 1 ∧
      (initialManpower actsW 2 1 =
        min (Nat.ceil ((workContent actsW : ℚ) / taktTime 2 1))
          actsW.length ∧
      (compute_allocation "L1" actsW 2 1).operators =
        mkOps (taktTime 2 1) 0
          ((binFill actsW
            (finalManpower actsW (upperBound (taktTime 2 1))
              (initialManpower actsW 2 1))
            (upperBound (taktTime 2 1))).1) ∧
      (((listMax (binFill actsW
            (finalManpower actsW (upperBound (taktTime 2 1))
              (initialManpower actsW 2 1))
            (upperBound (taktTime 2 1))).2 : ℕ) : ℚ) ≤
          upperBound (taktTime 2 1) ∨
        actsW.length ≤ finalManpower actsW (upperBound (taktTime 2 1))
          (initialManpower actsW 2 1)) ∧
      (∀ m, initialManpower actsW 2 1 ≤ m →
        m < finalManpower actsW (upperBound (taktTime 2 1))
          (initialManpower actsW 2 1) →
        ¬ (((listMax (binFill actsW m (upperBound (taktTime 2 1))).2 :
              ℕ) : ℚ) ≤ upperBound (taktTime 2 1)) ∧
          m < actsW.length)) :=
  ⟨by decide, by decide, by decide, by decide,
    alloc_search_loop_spec "L1" actsW 2 1 (by decide) (by decide)
      (by decide) (by decide)⟩

/-- C6: for positive shift minutes and planned quantity, an empty activity
list yields a structured result — the explicit "no activities" error
marker, zero takt, zero work content and zero operators — rather than an
exception; the takt/search pipeline contributes nothing to it. -/
theorem alloc_empty_result (line_name : String) (plan_qty shift_min : ℕ)
    (hq : 0 < plan_qty) (hs : 0 < shift_min) :
    compute_allocation line_name [] plan_qty shift_min =
      { line := line_name, plan := plan_qty, shift := shift_min, takt := 0,
        wc := 0, manpower_used := 0, operators := [],
        error := some "No activities defined for this line." } := rfl

theorem alloc_empty_result_witness :
    0 < 100 ∧ 0 < 480 ∧
      compute_allocation "L1" [] 100 480 =
        { line := "L1", plan := 100, shift := 480, takt := 0, wc := 0,
          manpower_used := 0, operators := [],
          error := some "No activities defined for this line." } :=
  ⟨by decide, by decide, alloc_empty_result "L1" 100 480 (by decide) (by decide)⟩

unseal Rat.mul Rat.add Rat.inv Rat.sub Rat.ofScientific in
/-- C7 counterexample: with the fixed activity list `actsThree` (three 5 s
activities) and shift 1 minute, quantities 12 < 30 give 3 reported
operators at quantity 12 but only 2 at quantity 30 — the reported operator
count is not monotonically non-decreasing in the planned quantity. -/
theorem alloc_opcount_not_monotone_cex :
    (12 : ℕ) < 30 ∧
    (compute_allocation "L1" actsThree 12 1).operators.length = 3 ∧
    (compute_allocation "L1" actsThree 30 1).operators.length = 2 ∧
    ¬ ((compute_allocation "L1" actsThree 12 1).operators.length ≤
        (compute_allocation "L1" actsThree 30 1).operators.length) :=
  ⟨by decide, by decide, by decide, by decide⟩

/-- C7 (amended): for a fixed positive shift, increasing the planned
quantity strictly decreases the takt time; the reported operator count,
however, is not monotone in the planned quantity (see the
counterexample). -/
theorem taktTime_strict_anti (shift_min q1 q2 : ℕ) (hs : 0 < shift_min)
    (h1 : 0 < q1) (h12 : q1 < q2) :
    taktTime q2 shift_min < taktTime q1 shift_min := by
  unfold taktTime
  apply div_lt_div_of_pos_left
  · exact_mod_cast Nat.mul_pos hs (by norm_num)
  · exact_mod_cast h1
  · exact_mod_cast h12

theorem taktTime_strict_anti_witness :
    0 < 1 ∧ 0 < 12 ∧ 12 < 30 ∧ taktTime 30 1 < taktTime 12 1 :=
  ⟨by decide, by decide, by decide,
    taktTime_strict_anti 1 12 30 (by decide) (by decide) (by decide)⟩

unseal Rat.mul Rat.add Rat.inv Rat.sub Rat.ofScientific in
/-- C8: the spec's worked example: six 10 s activities, shift 1 minute,
planned quantity 2 give takt 30 s, upper bound 32 s, initial manpower 2,
and a result with exactly two operators: `OP1` with activities 1-3
(total 30 s) and `OP2` with activities 4-6 (total 30 s), both `"ok"`. -/
theorem alloc_worked_example :
    taktTime 2 1 = 30 ∧
    upperBound (taktTime 2 1) = 32 ∧
    initialManpower actsSix 2 1 = 2 ∧
    (compute_allocation "L1" actsSix 2 1).operators.map
        (fun o => (o.name, o.acts.map (fun a => a.seq_no), o.time, o.status)) =
      [("OP1", [1, 2, 3], 30, "ok"), ("OP2", [4, 5, 6], 30, "ok")] ∧
    (compute_allocation "L1" actsSix 2 1).takt = 30 ∧
    (compute_allocation "L1" actsSix 2 1).manpower_used = 2 :=
  ⟨by decide, by decide, by decide, by decide, by decide, by decide⟩

/-- C9: for every non-empty activity list (positive durations, positive
parameters), the reported operator list is exactly the final buckets with
the zero-total buckets filtered out, every reported operator has a positive
total, and the result's `manpower_used` equals the number of operators
actually reported. -/
theorem alloc_nonempty_reported (line_name : String) (acts : List Activity)
    (plan_qty shift_min : ℕ) (hne : acts ≠ [])
    (hpos : ∀ a ∈ acts, 0 < a.time_sec)
    (hq : 0 < plan_qty) (hs : 0 < shift_min) :
    (compute_allocation line_name acts plan_qty shift_min).manpower_used =
      (compute_allocation line_name acts plan_qty shift_min).operators.length ∧
    (∀ o ∈ (compute_allocation line_name acts plan_qty shift_min).operators,
      0 < o.time) ∧
    (compute_allocation line_name acts plan_qty shift_min).operators.map
        (fun o => o.acts) =
      (finalBuckets acts plan_qty shift_min).filter
        (fun b => decide (0 < (b.map (fun a => a.time_sec)).sum)) := by
  rw [compute_allocation_ne _ _ _ _ hne]
  refine ⟨rfl, ?_, ?_⟩
  · intro o ho
    exact mkOps_time_pos (taktTime plan_qty shift_min)
      (finalBuckets acts plan_qty shift_min) 0 o ho
  · exact mkOps_map_acts _ _ _

theorem alloc_nonempty_reported_witness :
    actsW ≠ [] ∧ (∀ a ∈ actsW, 0 < a.time_sec) ∧ 0 < 2 ∧ 0 < 1 ∧
      ((compute_allocation "L1" actsW 2 1).manpower_used =
        (compute_allocation "L1" actsW 2 1).operators.length ∧
      (∀ o ∈ (compute_allocation "L1" actsW 2 1).operators, 0 < o.time) ∧
      (compute_allocation "L1" actsW 2 1).operators.map (fun o => o.acts) =
        (finalBuckets actsW 2 1).filter
          (fun b => decide (0 < (b.map (fun a => a.time_sec)).sum))) :=
  ⟨by decide, by decide, by decide, by decide,
    alloc_nonempty_reported "L1" actsW 2 1 (by decide) (by decide)
      (by decide) (by decide)⟩

unseal Rat.mul Rat.add Rat.inv Rat.sub Rat.ofScientific in
/-- C10: with `actsSkip` (first duration 100 s, far above
`takt + 2 = 3 s`, and two operator slots available) the greedy pass
advances past operator 0 before assigning anything: the first bucket ends
the accepted pass empty, and the single reported operator is named `OP2` —
reported operator indices need not start at 1 nor be contiguous. -/
theorem alloc_first_reported_is_op2 :
    upperBound (taktTime 60 1) < (100 : ℚ) ∧
    initialManpower actsSkip 60 1 = 2 ∧
    (finalBuckets actsSkip 60 1).getD 0 [] = [] ∧
    (compute_allocation "L1" actsSkip 60 1).operators.map (fun o => o.name) =
      ["OP2"] :=
  ⟨by decide, by decide, by decide, by decide⟩
